import Mathlib

/-!
Verification development for the Borealis time-domain-multiplexing tutorials.

The definitions below embed the compilation pipeline of the tutorials:
the mode-index calculator, the gate-argument padding performed in the
advanced tutorial, the channel-efficiency tiling, squeezing quantization,
phase compensation, the space unroller, the transfer-operator extractor
and the circuit constructions.  Gate arguments are modelled as exact
rationals; phase angles that the source writes as multiples of pi are
recorded by their rational coefficient of pi.
-/

namespace Borealis

/-! Mode-index calculator.

Modelled from the spec: the function get_mode_indices lives in the
strawberryfields library (only its call sites appear in the notebooks).
Per the spec it returns the cumulative register offsets (a list with
offsets[0] = 0, offsets[i] = offsets[i-1] + length_{i-1}, plus a trailing
offset) together with the concurrent-mode count N = 1 + sum of lengths,
and fails when the delay list is empty or contains a non-positive length.
-/

/-- Modelled from the spec: get_mode_indices from strawberryfields.tdm,
described in section 4.1 of the spec. -/
def get_mode_indices (delays : List Int) : Option (List Int × Int) :=
  if delays = [] ∨ delays.any (· ≤ 0) then none
  else some ((List.range (delays.length + 1)).map (fun i => (delays.take i).sum),
             1 + delays.sum)

/-! Gate-argument padding, embedded from the advanced tutorial.

The notebook builds, for delays [1, 6, 36] and 216 modes, the seven
sequences r, phi_0, alpha_0, phi_1, alpha_1, phi_2, alpha_2 by
  - forcing the first delay_i beamsplitter arguments of loop i to 0,
  - adding a run of zeros of length delay_0 + ... + delay_{i-1} in front of
    the loop-i sequences, and
  - appending a run of zeros of length delay_i + ... + delay_{k-1} to the
    loop-i sequences (and the full sum to the squeezing sequence).
The definitions below express those operations for an arbitrary delay
list; instantiated at [d0, d1, d2] they are literally the notebook's list
operations. -/

/-- Sum of the delays of the loops before loop i (length of the zero run
put in front of the loop-i sequences, cells 9 of the advanced tutorial). -/
def sumBefore (ds : List Nat) (i : Nat) : Nat := (ds.take i).sum

/-- Sum of the delays of loop i and all following loops (length of the
zero run appended to the loop-i sequences, cell 11 of the advanced
tutorial). -/
def sumFrom (ds : List Nat) (i : Nat) : Nat := (ds.drop i).sum

/-- Loop fill: force the first d beamsplitter arguments to 0 (full
transmission), as in alpha_i[:delay_i] = 0.0. -/
def loopFill (d : Nat) (seq : List ℚ) : List ℚ :=
  List.replicate (min d seq.length) 0 ++ seq.drop d

/-- Compiled beamsplitter sequence of loop i: loop-fill zeroing, then a
zero run in front for the arrival delay, then the drain run of zeros. -/
def compileBS (ds : List Nat) (i : Nat) (seq : List ℚ) : List ℚ :=
  List.replicate (sumBefore ds i) 0 ++ loopFill (ds.getD i 0) seq
    ++ List.replicate (sumFrom ds i) 0

/-- Compiled rotation sequence of loop i: a zero run in front for the
arrival delay followed by the drain run of zeros. -/
def compileR (ds : List Nat) (i : Nat) (seq : List ℚ) : List ℚ :=
  List.replicate (sumBefore ds i) 0 ++ seq ++ List.replicate (sumFrom ds i) 0

/-- Compiled squeezing sequence: the user sequence followed by the full
drain run of zeros (r += [0] * (delay_0 + delay_1 + delay_2)). -/
def compileSq (ds : List Nat) (seq : List ℚ) : List ℚ :=
  seq ++ List.replicate ds.sum 0

/-- Gate-argument list of the padded program, in the order of cell 15 of
the advanced tutorial: squeezing first, then rotation and beamsplitter
sequences of each loop. -/
def gate_args_list (ds : List Nat) (r : List ℚ) (phis alphas : List (List ℚ)) :
    List (List ℚ) :=
  compileSq ds r ::
    (List.range ds.length).flatMap
      (fun i => [compileR ds i (phis.getD i []), compileBS ds i (alphas.getD i [])])

theorem sumBefore_add_sumFrom (ds : List Nat) (i : Nat) :
    sumBefore ds i + sumFrom ds i = ds.sum := by
  unfold sumBefore sumFrom
  rw [← List.sum_append, List.take_append_drop]

theorem loopFill_length (d : Nat) (seq : List ℚ) :
    (loopFill d seq).length = seq.length := by
  simp [loopFill]
  omega

theorem compileBS_length (ds : List Nat) (i : Nat) (seq : List ℚ) :
    (compileBS ds i seq).length = sumBefore ds i + seq.length + sumFrom ds i := by
  simp [compileBS, loopFill_length]
  omega

theorem compileR_length (ds : List Nat) (i : Nat) (seq : List ℚ) :
    (compileR ds i seq).length = sumBefore ds i + seq.length + sumFrom ds i := by
  simp [compileR]
  omega

theorem getD_replicate_zero (n j : Nat) : (List.replicate n (0 : ℚ)).getD j 0 = 0 := by
  rcases Nat.lt_or_ge j n with h | h
  · simp [List.getD_eq_getElem?_getD, List.getElem?_replicate, h]
  · simp [List.getD_eq_getElem?_getD, List.getElem?_replicate, Nat.not_lt.mpr h]

theorem getDlist_of_lt {α : Type} {l : List α} {j : Nat} (h : j < l.length) {d : α} :
    l.getD j d = l[j] := by
  simp [List.getD_eq_getElem?_getD, List.getElem?_eq_getElem h]

theorem loopFill_getD_lt {d t : Nat} {seq : List ℚ} (ht : t < d) (hd : d ≤ seq.length) :
    (loopFill d seq).getD t 0 = 0 := by
  unfold loopFill
  rw [List.getD_append]
  · exact getD_replicate_zero _ _
  · simp
    omega

theorem loopFill_getD_ge {d t : Nat} {seq : List ℚ} (ht : d ≤ t) :
    (loopFill d seq).getD t 0 = seq.getD t 0 := by
  unfold loopFill
  rw [List.getD_append_right]
  · simp only [List.length_replicate]
    rcases Nat.le_total d seq.length with hle | hge
    · rw [Nat.min_eq_left hle]
      simp only [List.getD_eq_getElem?_getD, List.getElem?_drop]
      have harith : d + (t - d) = t := by omega
      rw [harith]
    · rw [Nat.min_eq_right hge, List.drop_eq_nil_of_le hge]
      have h2 : seq[t]? = none := List.getElem?_eq_none (by omega)
      simp [List.getD_eq_getElem?_getD, h2]
  · simp only [List.length_replicate]
    omega

theorem compileBS_getD_mid (ds : List Nat) (i : Nat) (seq : List ℚ) (t : Nat)
    (ht : t < seq.length) :
    (compileBS ds i seq).getD (sumBefore ds i + t) 0
      = (loopFill (ds.getD i 0) seq).getD t 0 := by
  unfold compileBS
  rw [List.append_assoc, List.getD_append_right, List.getD_append]
  · congr 1
    simp
  · rw [loopFill_length]
    simp
    omega
  · simp

theorem compileBS_getD_tail (ds : List Nat) (i : Nat) (seq : List ℚ) (j : Nat)
    (hj : sumBefore ds i + seq.length ≤ j) :
    (compileBS ds i seq).getD j 0 = 0 := by
  unfold compileBS
  rw [List.append_assoc, List.getD_append_right, List.getD_append_right]
  · exact getD_replicate_zero _ _
  · rw [loopFill_length]
    simp
    omega
  · simp
    omega

/-- C1: for every valid compilation input with M > 0 computational modes and
delay list ds, every gate sequence of the produced padded program (squeezing,
all rotation sequences, all beamsplitter sequences) has exactly the common
length L = M + ds.sum. -/
theorem padded_program_equal_length (ds : List Nat) (M : Nat) (hM : 0 < M)
    (r : List ℚ) (phis alphas : List (List ℚ))
    (hr : r.length = M) (hp : phis.length = ds.length) (ha : alphas.length = ds.length)
    (hpl : ∀ s ∈ phis, s.length = M) (hal : ∀ s ∈ alphas, s.length = M) :
    ∀ seq ∈ gate_args_list ds r phis alphas, seq.length = M + ds.sum := by
  intro seq hseq
  rcases List.mem_cons.mp hseq with h | h
  · subst h
    simp [compileSq, hr]
  · rcases List.mem_flatMap.mp h with ⟨i, hi, hmem⟩
    have hik : i < ds.length := List.mem_range.mp hi
    have hsum := sumBefore_add_sumFrom ds i
    have hphiD : (phis.getD i []).length = M := by
      have hil : i < phis.length := by omega
      rw [getDlist_of_lt hil]
      exact hpl _ (List.getElem_mem hil)
    have halD : (alphas.getD i []).length = M := by
      have hil : i < alphas.length := by omega
      rw [getDlist_of_lt hil]
      exact hal _ (List.getElem_mem hil)
    simp only [List.mem_cons, List.not_mem_nil, or_false] at hmem
    rcases hmem with rfl | rfl
    · rw [compileR_length, hphiD]
      omega
    · rw [compileBS_length, halD]
      omega

/-- Witness for C1 at the Scenario A input: delays [1, 6, 36], M = 216, so
every compiled sequence has length 259; checked here on the compiled
squeezing sequence of a concrete input. -/
theorem padded_program_equal_length_witness :
    (compileSq [1, 6, 36] (List.replicate 216 (1 : ℚ))).length = 259 := by
  have h := padded_program_equal_length [1, 6, 36] 216 (by norm_num)
      (List.replicate 216 1)
      (List.replicate 3 (List.replicate 216 0))
      (List.replicate 3 (List.replicate 216 1))
      (by rw [List.length_replicate]) (by rw [List.length_replicate]; rfl)
      (by rw [List.length_replicate]; rfl)
      (fun s hs => by rw [List.eq_of_mem_replicate hs, List.length_replicate])
      (fun s hs => by rw [List.eq_of_mem_replicate hs, List.length_replicate])
      (compileSq [1, 6, 36] (List.replicate 216 1))
      (List.mem_cons_self _ _)
  simpa using h

/-- C2: the compiled beamsplitter sequence of loop i has length L, its first
length_i entries and its last sumFrom entries are the full-transmission value
0, and the M entries starting at offset sumBefore carry the user-supplied
values (those before index length_i being the fill-forced zeros). -/
theorem compiled_bs_fill_drain (ds : List Nat) (M i : Nat) (alpha : List ℚ)
    (hi : i < ds.length) (hlen : alpha.length = M) (hdM : ds.getD i 0 ≤ M) :
    (compileBS ds i alpha).length = M + ds.sum ∧
    (∀ j < ds.getD i 0, (compileBS ds i alpha).getD j 0 = 0) ∧
    (∀ j, M + ds.sum - sumFrom ds i ≤ j → (compileBS ds i alpha).getD j 0 = 0) ∧
    (∀ t, ds.getD i 0 ≤ t → t < M →
      (compileBS ds i alpha).getD (sumBefore ds i + t) 0 = alpha.getD t 0) ∧
    (∀ t, t < ds.getD i 0 →
      (compileBS ds i alpha).getD (sumBefore ds i + t) 0 = 0) := by
  have hsum := sumBefore_add_sumFrom ds i
  refine ⟨?_, ?_, ?_, ?_, ?_⟩
  · rw [compileBS_length, hlen]
    omega
  · intro j hj
    rcases Nat.lt_or_ge j (sumBefore ds i) with hlt | hge
    · unfold compileBS
      rw [List.append_assoc, List.getD_append]
      · exact getD_replicate_zero _ _
      · simpa using hlt
    · have hj' : j = sumBefore ds i + (j - sumBefore ds i) := by omega
      rw [hj', compileBS_getD_mid]
      · exact loopFill_getD_lt (by omega) (by omega)
      · omega
  · intro j hj
    apply compileBS_getD_tail
    omega
  · intro t ht htM
    rw [compileBS_getD_mid _ _ _ _ (by omega)]
    exact loopFill_getD_ge ht
  · intro t ht
    rw [compileBS_getD_mid _ _ _ _ (by omega)]
    exact loopFill_getD_lt ht (by omega)

/-- Witness for C2 at the Scenario D input: single loop, delays [3], M = 5,
L = 8; beamsplitter indices 0, 1, 2 and 5, 6, 7 are forced to full
transmission and indices 3, 4 carry the user values 7 and 8. -/
theorem compiled_bs_fill_drain_witness :
    (compileBS [3] 0 [1, 2, 3, 7, 8]).length = 8 ∧
    (compileBS [3] 0 [1, 2, 3, 7, 8]).getD 0 0 = 0 ∧
    (compileBS [3] 0 [1, 2, 3, 7, 8]).getD 1 0 = 0 ∧
    (compileBS [3] 0 [1, 2, 3, 7, 8]).getD 2 0 = 0 ∧
    (compileBS [3] 0 [1, 2, 3, 7, 8]).getD 5 0 = 0 ∧
    (compileBS [3] 0 [1, 2, 3, 7, 8]).getD 6 0 = 0 ∧
    (compileBS [3] 0 [1, 2, 3, 7, 8]).getD 7 0 = 0 ∧
    (compileBS [3] 0 [1, 2, 3, 7, 8]).getD 3 0 = 7 ∧
    (compileBS [3] 0 [1, 2, 3, 7, 8]).getD 4 0 = 8 := by
  obtain ⟨hL, hfill, hdrain, huser, -⟩ :=
    compiled_bs_fill_drain [3] 5 0 [1, 2, 3, 7, 8] (by decide) (by decide) (by decide)
  have h3 := huser 3 (by decide) (by decide)
  have h4 := huser 4 (by decide) (by decide)
  have he : sumBefore [3] 0 = 0 := by decide
  rw [he] at h3 h4
  refine ⟨by simpa using hL, hfill 0 (by decide), hfill 1 (by decide), hfill 2 (by decide),
    hdrain 5 (by decide), hdrain 6 (by decide), hdrain 7 (by decide), ?_, ?_⟩
  · simpa using h3
  · simpa using h4

/-- C3 (spec-modelled): the mode-index calculator on a non-empty list of
strictly positive delays returns N = 1 + sum of the delays together with
register offsets satisfying offsets[0] = 0, the partial-sum recurrence, and a
trailing offset N - 1; it fails on an empty list or a non-positive length;
for [1, 6, 36] it yields N = 44. -/
theorem get_mode_indices_spec :
    (∀ ds : List Int, ds ≠ [] → (∀ d ∈ ds, 0 < d) →
      ∃ offs N, get_mode_indices ds = some (offs, N) ∧
        N = 1 + ds.sum ∧
        offs.length = ds.length + 1 ∧
        offs.getD 0 0 = 0 ∧
        (∀ i, 0 < i → i ≤ ds.length →
          offs.getD i 0 = offs.getD (i - 1) 0 + ds.getD (i - 1) 0) ∧
        offs.getD ds.length 0 = N - 1) ∧
    get_mode_indices [] = none ∧
    (∀ ds : List Int, (∃ d ∈ ds, d ≤ 0) → get_mode_indices ds = none) ∧
    (get_mode_indices [1, 6, 36]).map (fun x => x.2) = some 44 := by
  refine ⟨?_, by simp [get_mode_indices], ?_, by decide⟩
  case refine_2 =>
    rintro ds ⟨d, hd, hle⟩
    have hany : ds.any (· ≤ 0) = true := List.any_eq_true.mpr ⟨d, hd, by simpa⟩
    rw [get_mode_indices, if_pos (Or.inr hany)]
  · intro ds hne hpos
    have hguard : ¬(ds = [] ∨ ds.any (· ≤ 0)) := by
      rintro (h | h)
      · exact hne h
      · rcases List.any_eq_true.mp h with ⟨d, hd, hle⟩
        have hpd := hpos d hd
        have hle' : d ≤ 0 := by simpa using hle
        omega
    refine ⟨_, _, by rw [get_mode_indices, if_neg hguard], rfl, by simp, ?_, ?_, ?_⟩
    · have h0 : ((List.range (ds.length + 1)).map
          (fun i => (ds.take i).sum)).getD 0 0 = (ds.take 0).sum := by
        rw [List.getD_eq_getElem?_getD, List.getElem?_map, List.getElem?_range (by omega)]
        rfl
      simpa using h0
    · intro i h0i hik
      have hoff : ∀ j, j ≤ ds.length → ((List.range (ds.length + 1)).map
          (fun i => (ds.take i).sum)).getD j 0 = (ds.take j).sum := by
        intro j hj
        rw [List.getD_eq_getElem?_getD, List.getElem?_map, List.getElem?_range (by omega)]
        rfl
      rw [hoff i hik, hoff (i - 1) (by omega)]
      have hi1 : i - 1 < ds.length := by omega
      have hstep : (ds.take ((i - 1) + 1)).sum = (ds.take (i - 1)).sum + ds[i - 1] :=
        List.sum_take_succ ds (i - 1) hi1
      have hieq : (i - 1) + 1 = i := by omega
      rw [hieq] at hstep
      rw [hstep, getDlist_of_lt hi1]
    · have hoff : ((List.range (ds.length + 1)).map
          (fun i => (ds.take i).sum)).getD ds.length 0 = (ds.take ds.length).sum := by
        rw [List.getD_eq_getElem?_getD, List.getElem?_map, List.getElem?_range (by omega)]
        rfl
      rw [hoff, List.take_length]
      omega

/-- Witness for C3: applying the calculator to [1, 6, 36] gives offsets
[0, 1, 7, 43] and N = 44. -/
theorem get_mode_indices_spec_witness :
    get_mode_indices [1, 6, 36] = some ([0, 1, 7, 43], 44) := by
  obtain ⟨offs, N, heq, -, -, -, -, -⟩ :=
    get_mode_indices_spec.1 [1, 6, 36] (by decide) (by decide)
  rw [heq, ← heq]
  decide

/-! Channel-efficiency tiling, embedded from cell 25 of the advanced
tutorial: reps = ceil(prog_length / 16); np.tile(etas_ch_rel, reps)
truncated to prog_length. -/

/-- Concatenation of reps copies of a list, as np.tile builds it. -/
def npTile (xs : List ℚ) : Nat → List ℚ
  | 0 => []
  | reps + 1 => xs ++ npTile xs reps

/-- Tiled relative channel efficiencies: ceil(L / C) copies of the C-entry
efficiency list, truncated to the program length L. -/
def tiled_channel_efficiencies (etas : List ℚ) (L : Nat) : List ℚ :=
  (npTile etas ((L + etas.length - 1) / etas.length)).take L

theorem npTile_length (xs : List ℚ) (reps : Nat) :
    (npTile xs reps).length = reps * xs.length := by
  induction reps with
  | zero => simp [npTile]
  | succ n ih => simp [npTile, ih, Nat.succ_mul]; omega

theorem npTile_getD (xs : List ℚ) (hx : 0 < xs.length) :
    ∀ (reps t : Nat), t < reps * xs.length →
      (npTile xs reps).getD t 0 = xs.getD (t % xs.length) 0 := by
  intro reps
  induction reps with
  | zero => intro t ht; omega
  | succ n ih =>
    intro t ht
    rcases Nat.lt_or_ge t xs.length with hlt | hge
    · rw [npTile, List.getD_append _ _ _ _ hlt, Nat.mod_eq_of_lt hlt]
    · rw [npTile, List.getD_append_right _ _ _ _ hge]
      have harith : t = xs.length + (t - xs.length) := by omega
      have hmod : t % xs.length = (t - xs.length) % xs.length := by
        conv_lhs => rw [harith]
        rw [Nat.add_mod_left]
      rw [ih (t - xs.length) (by rw [Nat.succ_mul] at ht; omega), hmod]

theorem ceil_mul_ge (L C : Nat) (hC : 0 < C) : L ≤ (L + C - 1) / C * C := by
  have hdm := Nat.div_add_mod (L + C - 1) C
  have hmlt : (L + C - 1) % C < C := Nat.mod_lt _ hC
  rw [Nat.mul_comm]
  omega

/-- C6: the channel-efficiency tiling produces an array of length exactly L
with tiled[t] = relative_efficiency[t mod C] for every t < L (so time bin t
is served by detector t mod C). -/
theorem channel_tiling_spec (etas : List ℚ) (C L : Nat)
    (hC : 0 < C) (hlen : etas.length = C) :
    (tiled_channel_efficiencies etas L).length = L ∧
    ∀ t < L, (tiled_channel_efficiencies etas L).getD t 0 = etas.getD (t % C) 0 := by
  have hx : 0 < etas.length := by omega
  have hbound : L ≤ (L + etas.length - 1) / etas.length * etas.length :=
    ceil_mul_ge L etas.length hx
  constructor
  · rw [tiled_channel_efficiencies, List.length_take, npTile_length]
    omega
  · intro t ht
    rw [tiled_channel_efficiencies, List.getD_eq_getElem?_getD,
      List.getElem?_take_of_lt ht, ← List.getD_eq_getElem?_getD,
      npTile_getD etas hx _ t (by omega), hlen]

/-- Witness for C6 at the Scenario B input: C = 16 channel efficiencies,
L = 259; the tiled array has length 259 and entry 20 equals efficiency 4. -/
theorem channel_tiling_spec_witness :
    (tiled_channel_efficiencies
        [3/10, 31/100, 32/100, 33/100, 34/100, 35/100, 36/100, 37/100,
         38/100, 39/100, 40/100, 41/100, 42/100, 43/100, 44/100, 45/100]
        259).length = 259 ∧
    (tiled_channel_efficiencies
        [3/10, 31/100, 32/100, 33/100, 34/100, 35/100, 36/100, 37/100,
         38/100, 39/100, 40/100, 41/100, 42/100, 43/100, 44/100, 45/100]
        259).getD 20 0 = 34/100 := by
  obtain ⟨hlen, hval⟩ := channel_tiling_spec
      [3/10, 31/100, 32/100, 33/100, 34/100, 35/100, 36/100, 37/100,
       38/100, 39/100, 40/100, 41/100, 42/100, 43/100, 44/100, 45/100]
      16 259 (by norm_num) (by rfl)
  refine ⟨hlen, ?_⟩
  have h20 := hval 20 (by norm_num)
  rw [h20]
  rfl

/-! Squeezing quantization.

Modelled from the spec: the quantization is performed inside the
strawberryfields full_compile helper (only its call site appears in src/).
Per spec section 4.2 step 1, each requested squeezing value is replaced by
the calibration-supported value minimizing the absolute difference, ties
resolved toward the lower supported value. -/

/-- Modelled from the spec: one comparison step of the nearest-supported-value
search; prefers the candidate with strictly smaller distance to the request,
and on equal distance the smaller value. -/
def quantizeStep (x : ℚ) (best : Option ℚ) (s : ℚ) : Option ℚ :=
  match best with
  | none => some s
  | some b => if |s - x| < |b - x| ∨ (|s - x| = |b - x| ∧ s < b) then some s else some b

/-- Modelled from the spec: quantization of a requested squeezing value
against the calibration-supported set. -/
def quantize (supported : List ℚ) (x : ℚ) : Option ℚ :=
  supported.foldl (quantizeStep x) none

theorem quantizeStep_fold (x : ℚ) :
    ∀ (l : List ℚ) (b : ℚ),
      ∃ q, l.foldl (quantizeStep x) (some b) = some q ∧
        (q = b ∨ q ∈ l) ∧ |q - x| ≤ |b - x| ∧
        (∀ s ∈ l, |q - x| ≤ |s - x|) ∧
        (|b - x| = |q - x| → q ≤ b) ∧
        (∀ s ∈ l, |s - x| = |q - x| → q ≤ s) := by
  intro l
  induction l with
  | nil =>
    intro b
    exact ⟨b, rfl, Or.inl rfl, le_refl _, by simp, fun _ => le_refl _, by simp⟩
  | cons s l ih =>
    intro b
    by_cases hcase : |s - x| < |b - x| ∨ (|s - x| = |b - x| ∧ s < b)
    · obtain ⟨q, hfold, hmem, hle, hall, htieb, hties⟩ := ih s
      have hstep : (s :: l).foldl (quantizeStep x) (some b)
          = l.foldl (quantizeStep x) (some s) := by
        simp [List.foldl_cons, quantizeStep, if_pos hcase]
      have hsb : |s - x| ≤ |b - x| := by
        rcases hcase with h | ⟨h, -⟩
        · exact le_of_lt h
        · exact le_of_eq h
      refine ⟨q, hstep.trans hfold, ?_, le_trans hle hsb, ?_, ?_, ?_⟩
      · rcases hmem with rfl | hq
        · exact Or.inr (List.mem_cons_self _ _)
        · exact Or.inr (List.mem_cons_of_mem _ hq)
      · intro t htl
        rcases List.mem_cons.mp htl with rfl | htl'
        · exact hle
        · exact hall t htl'
      · intro hbq
        rcases hcase with h | ⟨h, hlt⟩
        · exact absurd (lt_of_le_of_lt (hbq ▸ hle) h) (lt_irrefl _)
        · exact le_trans (htieb (h ▸ hbq)) (le_of_lt hlt)
      · intro t htl
        rcases List.mem_cons.mp htl with rfl | htl'
        · exact htieb
        · exact hties t htl'
    · obtain ⟨q, hfold, hmem, hle, hall, htieb, hties⟩ := ih b
      have hstep : (s :: l).foldl (quantizeStep x) (some b)
          = l.foldl (quantizeStep x) (some b) := by
        simp [List.foldl_cons, quantizeStep, if_neg hcase]
      push_neg at hcase
      obtain ⟨hnlt, hntie⟩ := hcase
      have hbs : |b - x| ≤ |s - x| := hnlt
      refine ⟨q, hstep.trans hfold, ?_, hle, ?_, htieb, ?_⟩
      · rcases hmem with rfl | hq
        · exact Or.inl rfl
        · exact Or.inr (List.mem_cons_of_mem _ hq)
      · intro t htl
        rcases List.mem_cons.mp htl with rfl | htl'
        · exact le_trans hle hbs
        · exact hall t htl'
      · intro t htl
        rcases List.mem_cons.mp htl with rfl | htl'
        · intro htq
          have hqb : |b - x| = |q - x| := le_antisymm (htq ▸ hbs) hle
          have hsb' : |t - x| = |b - x| := htq.trans hqb.symm
          exact le_trans (htieb hqb) (hntie hsb')
        · exact hties t htl'

/-- C7: squeezing quantization maps every requested value to a supported
value minimizing the absolute difference, resolves ties toward the lower
supported value, is idempotent on already-supported values, and is a nearest
projection; quantizing 0.95 against the supported set 0, 0.8, 1, 1.234
yields 1. -/
theorem squeezing_quantization_spec :
    (∀ (supported : List ℚ) (x : ℚ), supported ≠ [] →
      ∃ q, quantize supported x = some q ∧ q ∈ supported ∧
        (∀ s ∈ supported, |q - x| ≤ |s - x|) ∧
        (∀ s ∈ supported, |s - x| = |q - x| → q ≤ s) ∧
        (x ∈ supported → q = x)) ∧
    quantize [0, 4/5, 1, 617/500] (19/20) = some 1 := by
  constructor
  · intro supported x hne
    match supported, hne with
    | s :: l, _ =>
      have hstart : quantize (s :: l) x = l.foldl (quantizeStep x) (some s) := rfl
      obtain ⟨q, hfold, hmem, hle, hall, htieb, hties⟩ := quantizeStep_fold x l s
      have hmem' : q ∈ s :: l := by
        rcases hmem with rfl | hq
        · exact List.mem_cons_self _ _
        · exact List.mem_cons_of_mem _ hq
      have hall' : ∀ t ∈ s :: l, |q - x| ≤ |t - x| := by
        intro t htl
        rcases List.mem_cons.mp htl with rfl | htl'
        · exact hle
        · exact hall t htl'
      have hties' : ∀ t ∈ s :: l, |t - x| = |q - x| → q ≤ t := by
        intro t htl
        rcases List.mem_cons.mp htl with rfl | htl'
        · exact htieb
        · exact hties t htl'
      refine ⟨q, hstart.trans hfold, hmem', hall', hties', ?_⟩
      intro hx
      have h0 : |q - x| ≤ |x - x| := hall' x hx
      rw [sub_self, abs_zero] at h0
      have := abs_nonpos_iff.mp h0
      exact sub_eq_zero.mp this
  · norm_num [quantize, quantizeStep, List.foldl, abs_of_nonneg, abs_of_nonpos]

/-- Witness for C7 at the Scenario C input: the supported set
0, 0.8, 1, 1.234 and request 0.95 give the quantized value 1, and 1 is at
least as close to 0.95 as the supported value 0.8. -/
theorem squeezing_quantization_spec_witness :
    quantize [0, 4/5, 1, 617/500] (19/20) = some 1 ∧
    |1 - (19/20 : ℚ)| ≤ |4/5 - (19/20 : ℚ)| := by
  have hconc := squeezing_quantization_spec.2
  obtain ⟨q, heq, hmem, hall, hties, hid⟩ :=
    squeezing_quantization_spec.1 [0, 4/5, 1, 617/500] (19/20) (by simp)
  have hq : q = 1 := by
    rw [heq] at hconc
    exact Option.some.inj hconc
  have h45 := hall (4/5) (by norm_num)
  rw [hq] at h45
  exact ⟨squeezing_quantization_spec.2, h45⟩

/-! Phase compensation.

Modelled from the spec: the compensation for the static loop phases happens
inside the strawberryfields Borealis compiler (the advanced tutorial only
shows the explicit-mode alternative of adding Rgate(phis_loop[i]) to the
program).  Per spec section 4.2 step 4 and section 7, in explicit mode an
out-of-bounds compensated phase is a ValidationError, while in absorbed mode
the value is wrapped by pi and the affected time bins are reported in a
non-fatal PhaseWrapNotice.  The numeric value of pi in the chosen phase
representation is passed in as the parameter piv. -/

/-- Compensation-mode flag of the gate-argument compiler. -/
inductive CompMode where
  | explicitMode
  | absorbedMode
deriving DecidableEq

/-- Modelled from the spec: test against the device-declared modulator
bounds. -/
def inPhaseRange (lo hi v : ℚ) : Prop := lo ≤ v ∧ v ≤ hi

instance (lo hi v : ℚ) : Decidable (inPhaseRange lo hi v) := by
  unfold inPhaseRange
  infer_instance

/-- Modelled from the spec: wrap an out-of-range compensated phase by pi,
shifting toward the representable range. -/
def wrapByPi (hi piv v : ℚ) : ℚ := if hi < v then v - piv else v + piv

/-- Modelled from the spec: phase compensation of one loop's rotation
sequence.  Adds the loop's static offset to every entry; in explicit mode it
fails with the list of offending time bins when a compensated value leaves
the bounds, in absorbed mode it wraps such values by pi and reports the
affected time bins as a non-fatal notice. -/
def compensatePhases (mode : CompMode) (lo hi piv offset : ℚ) (seq : List ℚ) :
    Except (List Nat) (List ℚ × List Nat) :=
  let comp := seq.map (· + offset)
  let bad := (List.range comp.length).filter
    (fun t => ¬ inPhaseRange lo hi (comp.getD t 0))
  match mode with
  | .explicitMode => if bad.isEmpty then .ok (comp, []) else .error bad
  | .absorbedMode =>
      .ok ((List.range comp.length).map
        (fun t => if inPhaseRange lo hi (comp.getD t 0) then comp.getD t 0
                  else wrapByPi hi piv (comp.getD t 0)), bad)

theorem comp_map_getD (offset : ℚ) (seq : List ℚ) (t : Nat) (ht : t < seq.length) :
    (seq.map (· + offset)).getD t 0 = seq.getD t 0 + offset := by
  rw [getDlist_of_lt (by simpa using ht), getDlist_of_lt ht, List.getElem_map]

/-- C8: phase compensation fails if and only if the mode is explicit and some
compensated phase leaves the device-declared bounds; in absorbed mode it
never fails, the notice enumerates exactly the out-of-range time bins, and
the value at each such bin is the pi-wrapped compensated phase. -/
theorem phase_compensation_error_spec (mode : CompMode) (lo hi piv offset : ℚ)
    (seq : List ℚ) :
    ((∃ e, compensatePhases mode lo hi piv offset seq = .error e) ↔
      (mode = .explicitMode ∧
        ∃ t < seq.length, ¬ inPhaseRange lo hi (seq.getD t 0 + offset))) ∧
    (mode = .absorbedMode →
      ∃ res notices, compensatePhases mode lo hi piv offset seq = .ok (res, notices) ∧
        notices = (List.range seq.length).filter
          (fun t => ¬ inPhaseRange lo hi (seq.getD t 0 + offset)) ∧
        (∀ t ∈ notices,
          res.getD t 0 = wrapByPi hi piv (seq.getD t 0 + offset))) := by
  have hfilter : (List.range (seq.map (· + offset)).length).filter
      (fun t => ¬ inPhaseRange lo hi ((seq.map (· + offset)).getD t 0))
      = (List.range seq.length).filter
      (fun t => ¬ inPhaseRange lo hi (seq.getD t 0 + offset)) := by
    rw [List.length_map]
    apply List.filter_congr
    intro t htr
    have ht : t < seq.length := List.mem_range.mp htr
    rw [comp_map_getD offset seq t ht]
  constructor
  · constructor
    · rintro ⟨e, he⟩
      cases mode with
      | explicitMode =>
        refine ⟨rfl, ?_⟩
        rw [compensatePhases] at he
        by_cases hbad : ((List.range (seq.map (· + offset)).length).filter
            (fun t => ¬ inPhaseRange lo hi ((seq.map (· + offset)).getD t 0))).isEmpty
        · simp only [hbad, if_pos] at he
          cases he
        · rw [List.isEmpty_iff] at hbad
          obtain ⟨t, htmem⟩ := List.exists_mem_of_ne_nil _ hbad
          have := List.mem_filter.mp htmem
          obtain ⟨htr, hpred⟩ := this
          have ht : t < seq.length := by
            have := List.mem_range.mp htr
            simpa using this
          refine ⟨t, ht, ?_⟩
          have := of_decide_eq_true hpred
          rwa [comp_map_getD offset seq t ht] at this
      | absorbedMode =>
        rw [compensatePhases] at he
        cases he
    · rintro ⟨hm, t, ht, hout⟩
      subst hm
      rw [compensatePhases]
      have hmem : t ∈ (List.range (seq.map (· + offset)).length).filter
          (fun t => ¬ inPhaseRange lo hi ((seq.map (· + offset)).getD t 0)) := by
        apply List.mem_filter.mpr
        refine ⟨List.mem_range.mpr (by simpa using ht), ?_⟩
        apply decide_eq_true
        rwa [comp_map_getD offset seq t ht]
      have hne : ¬ ((List.range (seq.map (· + offset)).length).filter
          (fun t => ¬ inPhaseRange lo hi ((seq.map (· + offset)).getD t 0))).isEmpty := by
        intro hempty
        rw [List.isEmpty_iff] at hempty
        rw [hempty] at hmem
        cases hmem
      simp only [hne, if_neg, if_false]
      exact ⟨_, rfl⟩
  · intro hm
    subst hm
    refine ⟨_, _, rfl, hfilter, ?_⟩
    intro t htmem
    rw [hfilter] at htmem
    obtain ⟨htr, hpred⟩ := List.mem_filter.mp htmem
    have ht : t < seq.length := List.mem_range.mp htr
    have hout : ¬ inPhaseRange lo hi (seq.getD t 0 + offset) := of_decide_eq_true hpred
    have hres : ((List.range (seq.map (· + offset)).length).map
        (fun t => if inPhaseRange lo hi ((seq.map (· + offset)).getD t 0)
                  then (seq.map (· + offset)).getD t 0
                  else wrapByPi hi piv ((seq.map (· + offset)).getD t 0))).getD t 0
        = if inPhaseRange lo hi ((seq.map (· + offset)).getD t 0)
          then (seq.map (· + offset)).getD t 0
          else wrapByPi hi piv ((seq.map (· + offset)).getD t 0) := by
      rw [List.getD_eq_getElem?_getD, List.getElem?_map,
        List.getElem?_range (by simpa using ht)]
      rfl
    rw [hres, comp_map_getD offset seq t ht, if_neg hout]

/-- Witness for C8: with bounds [-1, 1], pi-value 22/7, offset 3 and the
sequence [0, -3], absorbed mode succeeds, reports exactly time bin 0, and
wraps its value by pi. -/
theorem phase_compensation_error_spec_witness :
    ¬ (∃ e, compensatePhases .absorbedMode (-1) 1 (22/7) 3 [0, -3] = .error e) ∧
    ∃ res notices,
      compensatePhases .absorbedMode (-1) 1 (22/7) 3 [0, -3] = .ok (res, notices) ∧
      notices = (List.range ([0, -3] : List ℚ).length).filter
        (fun t => ¬ inPhaseRange (-1) 1 (([0, -3] : List ℚ).getD t 0 + 3)) ∧
      (∀ t ∈ notices,
        res.getD t 0 = wrapByPi 1 (22/7) (([0, -3] : List ℚ).getD t 0 + 3)) := by
  have h := phase_compensation_error_spec .absorbedMode (-1) 1 (22/7) 3 [0, -3]
  constructor
  · intro hex
    have := h.1.mp hex
    cases this.1
  · exact h.2 rfl

/-! Space unroller.

Modelled from the spec: space unrolling is performed by the strawberryfields
TDMProgram.space_unroll method and the space_unroll = True engine flag (only
their call sites appear in src/).  Per spec section 4.4, the unroller keeps
an array resident[0..N-1] of live register ids initialized with N vacuum
registers; at every time bin it allocates a fresh register for the incoming
pulse, lets it interact with the register sitting at each loop's offset
(displacing that register toward the next loop), applies the channel loss to
the register that leaves the last loop and measures it.  Registers are
numbered in creation order: ids 0..N-1 exist initially and id N+t is created
at time bin t. -/

/-- Operation of an unrolled circuit, tagged with its time bin. -/
inductive UOp where
  | twoMode (bin loop reg1 reg2 : Nat)
  | chLoss (bin reg : Nat)
  | measureOp (bin reg : Nat)
deriving DecidableEq

/-- Time bin an unrolled operation belongs to. -/
def UOp.bin : UOp → Nat
  | .twoMode t _ _ _ => t
  | .chLoss t _ => t
  | .measureOp t _ => t

/-- Registers referenced by an unrolled operation. -/
def UOp.refs : UOp → List Nat
  | .twoMode _ _ r1 r2 => [r1, r2]
  | .chLoss _ r => [r]
  | .measureOp _ r => [r]

/-- Modelled from the spec: the cascade of one time bin through the loops.
For each loop offset the register inside the loop interacts with the
travelling register, the travelling register takes its place in the loop and
the displaced register travels on.  Returns the new resident array, the
register that leaves the last loop, and the emitted operations. -/
def runLoops (t li : Nat) (offs resident : List Nat) (cur : Nat) :
    List Nat × Nat × List UOp :=
  match offs with
  | [] => (resident, cur, [])
  | o :: rest =>
    let inside := resident.getD o 0
    let r' := runLoops t (li + 1) rest (resident.set o cur) inside
    (r'.1, r'.2.1, UOp.twoMode t li inside cur :: r'.2.2)

/-- Modelled from the spec: one full time bin; allocates the fresh incoming
register, cascades it through the loops, then applies the channel loss and
the measurement to the register reaching the detector. -/
def stepBin (offs : List Nat) (t : Nat) (resident : List Nat) (nextId : Nat) :
    List Nat × Nat × List UOp :=
  let r' := runLoops t 0 offs resident nextId
  (r'.1, nextId + 1, r'.2.2 ++ [UOp.chLoss t r'.2.1, UOp.measureOp t r'.2.1])

/-- Modelled from the spec: unrolling from a given state for a given number
of remaining time bins. -/
def unrollFrom (offs : List Nat) (resident : List Nat) (nextId t : Nat) :
    Nat → List UOp
  | 0 => []
  | fuel + 1 =>
    (stepBin offs t resident nextId).2.2
      ++ unrollFrom offs (stepBin offs t resident nextId).1
          (stepBin offs t resident nextId).2.1 (t + 1) fuel

/-- Buffer slot read and written by each loop: the cumulative sums of the
preceding delays (the first ds.length entries of the mode-index list). -/
def loopOffsets (ds : List Nat) : List Nat :=
  (List.range ds.length).map (fun i => (ds.take i).sum)

/-- Modelled from the spec: the unrolled circuit of an L-bin program over
N = 1 + sum of delays concurrent registers, starting from N vacuum
registers. -/
def unroll (ds : List Nat) (L : Nat) : List UOp :=
  unrollFrom (loopOffsets ds) (List.range (1 + ds.sum)) (1 + ds.sum) 0 L

/-- Registers measured by an unrolled circuit, in measurement order. -/
def measuredRegs (ops : List UOp) : List Nat :=
  ops.filterMap (fun op => match op with | .measureOp _ r => some r | _ => none)

theorem set_get_swap_perm (l : List Nat) (o x : Nat) (h : o < l.length) :
    (l[o] :: l.set o x).Perm (x :: l) := by
  induction l generalizing o with
  | nil => cases h
  | cons a l ih =>
    cases o with
    | zero =>
      simpa using List.Perm.swap x a l
    | succ o' =>
      have h' : o' < l.length := by simpa using h
      have step1 : (l[o'] :: a :: l.set o' x).Perm (a :: l[o'] :: l.set o' x) :=
        List.Perm.swap a (l[o']) _
      have step2 : (a :: l[o'] :: l.set o' x).Perm (a :: x :: l) :=
        List.Perm.cons a (ih o' h')
      have step3 : (a :: x :: l).Perm (x :: a :: l) := List.Perm.swap x a l
      simpa using (step1.trans step2).trans step3

theorem runLoops_length (t li : Nat) (offs : List Nat) :
    ∀ (resident : List Nat) (cur : Nat),
      (runLoops t li offs resident cur).1.length = resident.length := by
  induction offs generalizing li with
  | nil => intro resident cur; rfl
  | cons o rest ih =>
    intro resident cur
    rw [runLoops, ih (li + 1) (resident.set o cur)]
    simp

theorem runLoops_perm (t : Nat) (offs : List Nat) :
    ∀ (li cur : Nat) (resident : List Nat), (∀ o ∈ offs, o < resident.length) →
      ((runLoops t li offs resident cur).2.1 :: (runLoops t li offs resident cur).1).Perm
        (cur :: resident) := by
  induction offs with
  | nil => intro li cur resident _; rfl
  | cons o rest ih =>
    intro li cur resident ho
    have hol : o < resident.length := ho o (List.mem_cons_self _ _)
    have hrest : ∀ o' ∈ rest, o' < (resident.set o cur).length := by
      intro o' ho'
      rw [List.length_set]
      exact ho o' (List.mem_cons_of_mem _ ho')
    have hins : resident.getD o 0 = resident[o] := getDlist_of_lt hol
    rw [runLoops]
    exact ((ih (li + 1) (resident.getD o 0) (resident.set o cur) hrest).trans
      (by rw [hins]; exact set_get_swap_perm resident o cur hol))

theorem runLoops_ops (t : Nat) (offs : List Nat) :
    ∀ (li cur : Nat) (resident : List Nat), (∀ o ∈ offs, o < resident.length) →
      ∀ op ∈ (runLoops t li offs resident cur).2.2,
        op.bin = t ∧ ∀ r ∈ op.refs, r ∈ cur :: resident := by
  induction offs with
  | nil => intro li cur resident _ op hop; cases hop
  | cons o rest ih =>
    intro li cur resident ho op hop
    have hol : o < resident.length := ho o (List.mem_cons_self _ _)
    have hrest : ∀ o' ∈ rest, o' < (resident.set o cur).length := by
      intro o' ho'
      rw [List.length_set]
      exact ho o' (List.mem_cons_of_mem _ ho')
    have hins : resident.getD o 0 = resident[o] := getDlist_of_lt hol
    rw [runLoops] at hop
    rcases List.mem_cons.mp hop with rfl | hop'
    · refine ⟨rfl, ?_⟩
      intro r hr
      rcases List.mem_cons.mp hr with rfl | hr'
      · rw [hins]
        exact List.mem_cons_of_mem _ (List.getElem_mem hol)
      · rcases List.mem_cons.mp hr' with rfl | hr''
        · exact List.mem_cons_self _ _
        · cases hr''
    · obtain ⟨hbin, hrefs⟩ := ih (li + 1) (resident.getD o 0) (resident.set o cur) hrest op hop'
      refine ⟨hbin, ?_⟩
      intro r hr
      have hmem := hrefs r hr
      have hperm : (resident.getD o 0 :: resident.set o cur).Perm (cur :: resident) := by
        rw [hins]
        exact set_get_swap_perm resident o cur hol
      exact hperm.mem_iff.mp hmem

theorem runLoops_measured (t li : Nat) (offs : List Nat) :
    ∀ (resident : List Nat) (cur : Nat),
      measuredRegs (runLoops t li offs resident cur).2.2 = [] := by
  induction offs generalizing li with
  | nil => intro resident cur; rfl
  | cons o rest ih =>
    intro resident cur
    rw [runLoops]
    exact ih (li + 1) (resident.set o cur) (resident.getD o 0)

theorem measuredRegs_append (l1 l2 : List UOp) :
    measuredRegs (l1 ++ l2) = measuredRegs l1 ++ measuredRegs l2 := by
  simp [measuredRegs]

theorem stepBin_measured (offs : List Nat) (t : Nat) (resident : List Nat)
    (nextId : Nat) :
    measuredRegs (stepBin offs t resident nextId).2.2
      = [(runLoops t 0 offs resident nextId).2.1] := by
  show measuredRegs ((runLoops t 0 offs resident nextId).2.2
      ++ [UOp.chLoss t (runLoops t 0 offs resident nextId).2.1,
          UOp.measureOp t (runLoops t 0 offs resident nextId).2.1]) = _
  rw [measuredRegs_append, runLoops_measured]
  rfl

theorem unrollFrom_feedforward :
    ∀ (fuel : Nat) (offs resident : List Nat) (nextId t : Nat),
      (∀ o ∈ offs, o < resident.length) →
      (∀ r ∈ resident, r < nextId) →
      ∀ op ∈ unrollFrom offs resident nextId t fuel,
        t ≤ op.bin ∧ ∀ r ∈ op.refs, r < nextId + (op.bin - t) + 1 := by
  intro fuel
  induction fuel with
  | zero => intro offs resident nextId t _ _ op hop; cases hop
  | succ fuel ih =>
    intro offs resident nextId t ho hres op hop
    rw [unrollFrom] at hop
    have hperm := runLoops_perm t offs 0 nextId resident ho
    rcases List.mem_append.mp hop with hstep | hrec
    · have hstep' : op ∈ (runLoops t 0 offs resident nextId).2.2
          ++ [UOp.chLoss t (runLoops t 0 offs resident nextId).2.1,
              UOp.measureOp t (runLoops t 0 offs resident nextId).2.1] := hstep
      have hmcur : (runLoops t 0 offs resident nextId).2.1 ∈ nextId :: resident :=
        hperm.mem_iff.mp (List.mem_cons_self _ _)
      have hmb : (runLoops t 0 offs resident nextId).2.1 < nextId + 1 := by
        rcases List.mem_cons.mp hmcur with h | h
        · omega
        · have := hres _ h
          omega
      rcases List.mem_append.mp hstep' with hloop | htail
      · obtain ⟨hbin, hrefs⟩ := runLoops_ops t offs 0 nextId resident ho op hloop
        refine ⟨hbin ▸ le_refl t, ?_⟩
        intro r hr
        have hmem := hrefs r hr
        rw [hbin]
        rcases List.mem_cons.mp hmem with rfl | hmem'
        · omega
        · have := hres r hmem'
          omega
      · rcases List.mem_cons.mp htail with rfl | htail'
        · refine ⟨le_refl t, ?_⟩
          intro r hr
          have hr' := List.mem_singleton.mp hr
          subst hr'
          have hbe : (UOp.chLoss t (runLoops t 0 offs resident nextId).2.1).bin = t := rfl
          rw [hbe]
          omega
        · rcases List.mem_cons.mp htail' with rfl | hnil
          · refine ⟨le_refl t, ?_⟩
            intro r hr
            have hr' := List.mem_singleton.mp hr
            subst hr'
            have hbe : (UOp.measureOp t (runLoops t 0 offs resident nextId).2.1).bin = t := rfl
            rw [hbe]
            omega
          · cases hnil
    · have hlen := runLoops_length t 0 offs resident nextId
      have ho' : ∀ o ∈ offs, o < (stepBin offs t resident nextId).1.length := by
        show ∀ o ∈ offs, o < (runLoops t 0 offs resident nextId).1.length
        rw [hlen]
        exact ho
      have hres' : ∀ r ∈ (stepBin offs t resident nextId).1,
          r < (stepBin offs t resident nextId).2.1 := by
        show ∀ r ∈ (runLoops t 0 offs resident nextId).1, r < nextId + 1
        intro r hr
        have hmem : r ∈ nextId :: resident :=
          hperm.mem_iff.mp (List.mem_cons_of_mem _ hr)
        rcases List.mem_cons.mp hmem with rfl | h
        · omega
        · have := hres r h
          omega
      obtain ⟨hbin, hrefs⟩ := ih offs (stepBin offs t resident nextId).1
        (stepBin offs t resident nextId).2.1 (t + 1) ho' hres' op hrec
      have h21 : (stepBin offs t resident nextId).2.1 = nextId + 1 := rfl
      refine ⟨by omega, ?_⟩
      intro r hr
      have hb := hrefs r hr
      rw [h21] at hb
      omega

theorem unrollFrom_measured_nodup :
    ∀ (fuel : Nat) (offs resident : List Nat) (nextId t : Nat),
      (∀ o ∈ offs, o < resident.length) →
      (∀ r ∈ resident, r < nextId) → resident.Nodup →
      (measuredRegs (unrollFrom offs resident nextId t fuel)).Nodup ∧
      (∀ r ∈ measuredRegs (unrollFrom offs resident nextId t fuel),
        r ∈ resident ∨ nextId ≤ r) := by
  intro fuel
  induction fuel with
  | zero =>
    intro offs resident nextId t _ _ _
    simp [unrollFrom, measuredRegs]
  | succ fuel ih =>
    intro offs resident nextId t ho hres hnd
    rw [unrollFrom, measuredRegs_append, stepBin_measured, List.singleton_append]
    have hperm := runLoops_perm t offs 0 nextId resident ho
    have hndsrc : (nextId :: resident).Nodup := by
      rw [List.nodup_cons]
      exact ⟨fun hmem => absurd (hres _ hmem) (lt_irrefl _), hnd⟩
    have hnd' : ((runLoops t 0 offs resident nextId).2.1
        :: (runLoops t 0 offs resident nextId).1).Nodup :=
      (hperm.nodup_iff).mpr hndsrc
    have hmcur : (runLoops t 0 offs resident nextId).2.1 ∈ nextId :: resident :=
      hperm.mem_iff.mp (List.mem_cons_self _ _)
    have hmb : (runLoops t 0 offs resident nextId).2.1 < nextId + 1 := by
      rcases List.mem_cons.mp hmcur with h | h
      · omega
      · have := hres _ h
        omega
    have hmnotin : (runLoops t 0 offs resident nextId).2.1
        ∉ (runLoops t 0 offs resident nextId).1 := (List.nodup_cons.mp hnd').1
    have hlen := runLoops_length t 0 offs resident nextId
    have ho' : ∀ o ∈ offs, o < (stepBin offs t resident nextId).1.length := by
      show ∀ o ∈ offs, o < (runLoops t 0 offs resident nextId).1.length
      rw [hlen]
      exact ho
    have hres' : ∀ r ∈ (stepBin offs t resident nextId).1,
        r < (stepBin offs t resident nextId).2.1 := by
      show ∀ r ∈ (runLoops t 0 offs resident nextId).1, r < nextId + 1
      intro r hr
      have hmem : r ∈ nextId :: resident :=
        hperm.mem_iff.mp (List.mem_cons_of_mem _ hr)
      rcases List.mem_cons.mp hmem with rfl | h
      · omega
      · have := hres r h
        omega
    have hnd'' : (stepBin offs t resident nextId).1.Nodup :=
      (List.nodup_cons.mp hnd').2
    obtain ⟨ihnd, ihsub⟩ := ih offs (stepBin offs t resident nextId).1
      (stepBin offs t resident nextId).2.1 (t + 1) ho' hres' hnd''
    have h21 : (stepBin offs t resident nextId).2.1 = nextId + 1 := rfl
    constructor
    · rw [List.nodup_cons]
      refine ⟨?_, ihnd⟩
      intro hmem
      rcases ihsub _ hmem with hin | hge
      · exact hmnotin hin
      · rw [h21] at hge
        omega
    · intro r hr
      rcases List.mem_cons.mp hr with rfl | hrest
      · rcases List.mem_cons.mp hmcur with h | h
        · omega
        · exact Or.inl h
      · rcases ihsub r hrest with hin | hge
        · have hmem : r ∈ nextId :: resident :=
            hperm.mem_iff.mp (List.mem_cons_of_mem _ hin)
          rcases List.mem_cons.mp hmem with rfl | h
          · exact Or.inr (le_refl _)
          · exact Or.inl h
        · rw [h21] at hge
          exact Or.inr (by omega)

theorem unrollFrom_measured_length :
    ∀ (fuel : Nat) (offs resident : List Nat) (nextId t : Nat),
      (measuredRegs (unrollFrom offs resident nextId t fuel)).length = fuel := by
  intro fuel
  induction fuel with
  | zero => intro offs resident nextId t; rfl
  | succ fuel ih =>
    intro offs resident nextId t
    rw [unrollFrom, measuredRegs_append, stepBin_measured, List.length_append,
      ih offs (stepBin offs t resident nextId).1 (stepBin offs t resident nextId).2.1
        (t + 1)]
    simp only [List.length_singleton]
    omega

theorem loopOffsets_lt (ds : List Nat) : ∀ o ∈ loopOffsets ds, o < 1 + ds.sum := by
  intro o ho
  obtain ⟨i, -, rfl⟩ := List.mem_map.mp ho
  have := sumBefore_add_sumFrom ds i
  unfold sumBefore at this
  omega

/-- C4 (spec-modelled): in the unrolled circuit of an L = M + sum(delays)
bin program, every operation of time bin b references only registers with
id below N + b + 1, which are exactly the registers already created when the
bin starts (N initial vacuum registers and one fresh register per elapsed
bin); no register is measured twice; the number of measurements equals L;
and dropping the first sum(delays) measurements leaves exactly M. -/
theorem space_unroll_invariants (ds : List Nat) (M : Nat) :
    (∀ op ∈ unroll ds (M + ds.sum), ∀ r ∈ op.refs,
      r < (1 + ds.sum) + op.bin + 1) ∧
    (measuredRegs (unroll ds (M + ds.sum))).Nodup ∧
    (measuredRegs (unroll ds (M + ds.sum))).length = M + ds.sum ∧
    ((measuredRegs (unroll ds (M + ds.sum))).drop ds.sum).length = M := by
  have ho : ∀ o ∈ loopOffsets ds, o < (List.range (1 + ds.sum)).length := by
    rw [List.length_range]
    exact loopOffsets_lt ds
  have hres : ∀ r ∈ List.range (1 + ds.sum), r < 1 + ds.sum :=
    fun r hr => List.mem_range.mp hr
  refine ⟨?_, ?_, ?_, ?_⟩
  · intro op hop r hr
    obtain ⟨hbin, hrefs⟩ := unrollFrom_feedforward (M + ds.sum) (loopOffsets ds)
      (List.range (1 + ds.sum)) (1 + ds.sum) 0 ho hres op hop
    have := hrefs r hr
    omega
  · exact (unrollFrom_measured_nodup (M + ds.sum) (loopOffsets ds)
      (List.range (1 + ds.sum)) (1 + ds.sum) 0 ho hres (List.nodup_range _)).1
  · exact unrollFrom_measured_length (M + ds.sum) (loopOffsets ds)
      (List.range (1 + ds.sum)) (1 + ds.sum) 0
  · rw [List.length_drop]
    have h' : (measuredRegs (unroll ds (M + ds.sum))).length = M + ds.sum :=
      unrollFrom_measured_length (M + ds.sum) (loopOffsets ds)
        (List.range (1 + ds.sum)) (1 + ds.sum) 0
    omega

/-- Witness for C4 on the single-loop program with delays [1] and M = 2
(L = 3): the bin-1 beamsplitter interaction references only registers that
already exist, the three measured registers are all distinct, and cropping
one vacuum measurement leaves two. -/
theorem space_unroll_invariants_witness :
    (∀ r ∈ (UOp.twoMode 1 0 2 3).refs,
      r < (1 + ([1] : List Nat).sum) + (UOp.twoMode 1 0 2 3).bin + 1) ∧
    (measuredRegs (unroll [1] (2 + ([1] : List Nat).sum))).Nodup ∧
    (measuredRegs (unroll [1] (2 + ([1] : List Nat).sum))).length = 3 ∧
    ((measuredRegs (unroll [1] (2 + ([1] : List Nat).sum))).drop
      ([1] : List Nat).sum).length = 2 := by
  obtain ⟨hff, hnd, hlen, hcrop⟩ := space_unroll_invariants [1] 2
  exact ⟨hff _ (by decide), hnd, by simpa using hlen, hcrop⟩

/-! Sample arrays and cropping.

Modelled from the spec: running a compiled program returns a sample array of
shape (shots, spatial_registers = 1, temporal_modes); the measurement
outcomes of one shot are a function of the measured register, and crop=true
discards the first sum(delays) vacuum measurements from the measurement list
(a post-processing slice, spec sections 4.4 and 6). -/

/-- Modelled from the spec: the temporal samples of one shot: the outcome
function applied to the measured registers of the unrolled circuit, with the
first sum(delays) vacuum measurements discarded when crop is set. -/
def runTemporal (f : Nat → ℚ) (ds : List Nat) (L : Nat) (crop : Bool) : List ℚ :=
  (if crop then (measuredRegs (unroll ds L)).drop ds.sum
   else measuredRegs (unroll ds L)).map f

/-- Modelled from the spec: the full returned sample array of shape
(shots, 1, temporal_modes). -/
def sampleArray (shots : Nat) (f : Nat → Nat → ℚ) (ds : List Nat) (L : Nat)
    (crop : Bool) : List (List (List ℚ)) :=
  (List.range shots).map (fun s => [runTemporal (f s) ds L crop])

/-- C5 (spec-modelled): running with crop=true equals running with
crop=false and then slicing away the first sum(delays) entries along the
temporal axis; the uncropped array has temporal length L = M + sum(delays)
and the cropped one has temporal length M, with one spatial register and one
entry per shot in both. -/
theorem crop_equivalence (shots : Nat) (f : Nat → Nat → ℚ) (ds : List Nat)
    (M : Nat) :
    sampleArray shots f ds (M + ds.sum) true
      = (sampleArray shots f ds (M + ds.sum) false).map
          (fun shot => shot.map (fun row => row.drop ds.sum)) ∧
    (sampleArray shots f ds (M + ds.sum) false).length = shots ∧
    (sampleArray shots f ds (M + ds.sum) true).length = shots ∧
    (∀ shot ∈ sampleArray shots f ds (M + ds.sum) false,
      shot.length = 1 ∧ ∀ row ∈ shot, row.length = M + ds.sum) ∧
    (∀ shot ∈ sampleArray shots f ds (M + ds.sum) true,
      shot.length = 1 ∧ ∀ row ∈ shot, row.length = M) := by
  have hmlen : (measuredRegs (unroll ds (M + ds.sum))).length = M + ds.sum :=
    unrollFrom_measured_length (M + ds.sum) (loopOffsets ds)
      (List.range (1 + ds.sum)) (1 + ds.sum) 0
  refine ⟨?_, by simp [sampleArray], by simp [sampleArray], ?_, ?_⟩
  · rw [sampleArray, sampleArray, List.map_map]
    apply List.map_congr_left
    intro s _
    simp only [Function.comp_apply, List.map_cons, List.map_nil]
    rw [runTemporal, runTemporal, if_pos rfl, if_neg (by simp), List.map_drop]
  · intro shot hshot
    obtain ⟨s, -, rfl⟩ := List.mem_map.mp hshot
    refine ⟨rfl, ?_⟩
    intro row hrow
    rcases List.mem_cons.mp hrow with rfl | hnil
    · rw [runTemporal, if_neg (by simp), List.length_map, hmlen]
    · cases hnil
  · intro shot hshot
    obtain ⟨s, -, rfl⟩ := List.mem_map.mp hshot
    refine ⟨rfl, ?_⟩
    intro row hrow
    rcases List.mem_cons.mp hrow with rfl | hnil
    · rw [runTemporal, if_pos rfl, List.length_map, List.length_drop, hmlen]
      omega
    · cases hnil

/-- Witness for C5 on the single-loop program with delays [1], M = 2 and one
shot: cropping equals dropping the first temporal entry, and the temporal
rows have lengths 3 and 2. -/
theorem crop_equivalence_witness :
    sampleArray 1 (fun _ _ => (0 : ℚ)) [1] (2 + ([1] : List Nat).sum) true
      = (sampleArray 1 (fun _ _ => (0 : ℚ)) [1] (2 + ([1] : List Nat).sum) false).map
          (fun shot => shot.map (fun row => row.drop ([1] : List Nat).sum)) ∧
    (runTemporal (fun _ => (0 : ℚ)) [1] (2 + ([1] : List Nat).sum) false).length
      = 2 + ([1] : List Nat).sum ∧
    (runTemporal (fun _ => (0 : ℚ)) [1] (2 + ([1] : List Nat).sum) true).length = 2 := by
  obtain ⟨heq, -, -, hfalse, htrue⟩ :=
    crop_equivalence 1 (fun _ _ => (0 : ℚ)) [1] 2
  refine ⟨heq, ?_, ?_⟩
  · exact (hfalse [runTemporal (fun _ => (0 : ℚ)) [1] (2 + ([1] : List Nat).sum) false]
      (by simp [sampleArray])).2 _ (List.mem_cons_self _ _)
  · exact (htrue [runTemporal (fun _ => (0 : ℚ)) [1] (2 + ([1] : List Nat).sum) true]
      (by simp [sampleArray])).2 _ (List.mem_cons_self _ _)

/-! Transfer-operator extractor.

Modelled from the spec: the extraction itself is performed by the
strawberryfields passive compiler; the notebook (cells 35 and 37) builds a
squeezing-free program, compiles it with compiler="passive" and crops the
resulting L-by-L transfer matrix to rows and columns vac_modes..prog_length.
Per spec section 4.5 each two-register interaction embeds its 2x2 operator
into the identity over the full register set, loss embeds a 1x1 scalar, the
operators are composed chronologically with later operators premultiplying
earlier ones, and extraction fails whenever a squeezing operation is
present. -/

/-- Passive-circuit operation over n unrolled registers with entries in R:
a two-register interaction with an explicit 2x2 operator, a single-register
loss, or a (non-passive) squeezing operation. -/
inductive PassiveOp (n : Nat) (R : Type) where
  | twoMode (i j : Fin n) (a b c d : R)
  | oneLoss (i : Fin n) (eta : R)
  | squeezeOp (i : Fin n) (r : R)

/-- Test for the non-passive squeezing operation. -/
def PassiveOp.isSqueeze {n : Nat} {R : Type} : PassiveOp n R → Bool
  | .squeezeOp _ _ => true
  | _ => false

/-- Modelled from the spec: embedding of an operation's 2x2 (or 1x1)
operator into the identity over the full unrolled register set. -/
def opMatrix {n : Nat} {R : Type} [CommRing R] :
    PassiveOp n R → Matrix (Fin n) (Fin n) R
  | .twoMode i j a b c d => Matrix.of fun p q =>
      if p = i then (if q = i then a else if q = j then b else 0)
      else if p = j then (if q = i then c else if q = j then d else 0)
      else if p = q then 1 else 0
  | .oneLoss i eta => Matrix.of fun p q =>
      if p = i then (if q = i then eta else 0)
      else if p = q then 1 else 0
  | .squeezeOp _ _ => 1

/-- Modelled from the spec: composition of the full circuit into one
n-by-n matrix, the operator of a later operation premultiplying the earlier
ones; fails when any squeezing operation is present. -/
def extractTransferFull {n : Nat} {R : Type} [CommRing R]
    (ops : List (PassiveOp n R)) : Except Unit (Matrix (Fin n) (Fin n) R) :=
  if ops.any (·.isSqueeze) then .error ()
  else .ok (ops.foldl (fun acc op => opMatrix op * acc) 1)

/-- Transfer operator over the M computational registers: the full matrix
restricted to rows and columns vac..vac+M-1, exactly the notebook's
transfer_matrix_tot[vac_modes:prog_length, vac_modes:prog_length]. -/
def transferOperator (vac M' : Nat) {R : Type} [CommRing R]
    (ops : List (PassiveOp (vac + M') R)) :
    Except Unit (Matrix (Fin M') (Fin M') R) :=
  (extractTransferFull ops).map
    (fun T => Matrix.of fun p q =>
      T ⟨vac + p.1, Nat.add_lt_add_left p.isLt vac⟩
        ⟨vac + q.1, Nat.add_lt_add_left q.isLt vac⟩)

/-- C9 (spec-modelled): on a circuit containing only passive operations the
extractor succeeds and produces the chronological composition over the full
vac + M registers, and the transfer operator over the M computational
registers is its restriction to the rows and columns shifted by vac; the
extractor fails whenever the circuit contains a squeezing operation. -/
theorem transfer_operator_extraction {R : Type} [CommRing R] (vac M' : Nat)
    (ops : List (PassiveOp (vac + M') R)) :
    ((∀ op ∈ ops, op.isSqueeze = false) →
      extractTransferFull ops
          = .ok (ops.foldl (fun acc op => opMatrix op * acc) 1) ∧
      transferOperator vac M' ops
          = .ok (Matrix.of fun p q =>
              (ops.foldl (fun acc op => opMatrix op * acc)
                  (1 : Matrix (Fin (vac + M')) (Fin (vac + M')) R))
                ⟨vac + p.1, Nat.add_lt_add_left p.isLt vac⟩
                ⟨vac + q.1, Nat.add_lt_add_left q.isLt vac⟩)) ∧
    ((∃ op ∈ ops, op.isSqueeze = true) → extractTransferFull ops = .error ()) := by
  constructor
  · intro hpassive
    have hany : ops.any (·.isSqueeze) = false := by
      rw [List.any_eq_false]
      intro op hop
      rw [hpassive op hop]
      simp
    have hok : extractTransferFull ops
        = .ok (ops.foldl (fun acc op => opMatrix op * acc) 1) := by
      rw [extractTransferFull, hany]
      rfl
    refine ⟨hok, ?_⟩
    rw [transferOperator, hok]
    rfl
  · rintro ⟨op, hop, hsq⟩
    have hany : ops.any (·.isSqueeze) = true :=
      List.any_eq_true.mpr ⟨op, hop, hsq⟩
    rw [extractTransferFull, hany]
    rfl

/-- Witness for C9: a single-loss passive circuit over 1 + 1 registers is
extracted successfully and its transfer operator is the vac-shifted
restriction of the full composition. -/
theorem transfer_operator_extraction_witness :
    extractTransferFull [PassiveOp.oneLoss (0 : Fin (1 + 1)) (1/2 : ℚ)]
      = .ok ([PassiveOp.oneLoss (0 : Fin (1 + 1)) (1/2 : ℚ)].foldl
          (fun acc op => opMatrix op * acc) 1) ∧
    transferOperator 1 1 [PassiveOp.oneLoss (0 : Fin (1 + 1)) (1/2 : ℚ)]
      = .ok (Matrix.of fun p q =>
          ([PassiveOp.oneLoss (0 : Fin (1 + 1)) (1/2 : ℚ)].foldl
            (fun acc op => opMatrix op * acc)
            (1 : Matrix (Fin (1 + 1)) (Fin (1 + 1)) ℚ))
            ⟨1 + p.1, Nat.add_lt_add_left p.isLt 1⟩
            ⟨1 + q.1, Nat.add_lt_add_left q.isLt 1⟩) := by
  refine (transfer_operator_extraction 1 1
    [PassiveOp.oneLoss (0 : Fin (1 + 1)) (1/2 : ℚ)]).1 ?_
  intro op hop
  rcases List.mem_singleton.mp hop with rfl
  rfl

/-! Circuit constructions of the three notebooks.

The notebooks build their TDM programs with the same gate pattern: an
optional Sgate(p[0]), then for every loop i an Rgate(p[2i+1]), a
BSgate(p[2i+2], pi/2) on modes (n[i+1], n[i]), optionally the static loop
phase Rgate(phis_loop[i]) and loss channels, and a final Fock measurement.
Gates taking a programmable per-time-bin sequence carry the index of their
parameter slot p[..]; constant angles written as multiples of pi carry the
rational coefficient of pi, so the BSgate phase np.pi / 2 is recorded as
1/2. -/

/-- Gate of a constructed TDM circuit. -/
inductive CGate where
  | sgate (pIdx m : Nat)
  | rgateP (pIdx m : Nat)
  | rgateStatic (phase : ℚ) (m : Nat)
  | bsgate (pIdx : Nat) (phaseOverPi : ℚ) (m1 m2 : Nat)
  | lossChannelK (eta : ℚ) (m : Nat)
  | lossChannelP (pIdx m : Nat)
  | measureFock (m : Nat)
deriving DecidableEq

/-- Circuit of the quickstart tutorial: Sgate(p[0]), per loop Rgate(p[2i+1])
and BSgate(p[2i+2], pi/2) on (q[n[i+1]], q[n[i]]), and MeasureFock on q[0].
-/
def quickstartProg (ds n : List Nat) : List CGate :=
  (CGate.sgate 0 (n.getD 0 0) ::
    (List.range ds.length).flatMap (fun i =>
      [CGate.rgateP (2 * i + 1) (n.getD i 0),
       CGate.bsgate (2 * i + 2) (1/2) (n.getD (i + 1) 0) (n.getD i 0)]))
  ++ [CGate.measureFock 0]

/-- Circuit of the beginner tutorial; its construction cell is identical to
the quickstart one. -/
def beginnerProg (ds n : List Nat) : List CGate := quickstartProg ds n

/-- Circuit of the advanced tutorial (hardware submission): additionally
includes the static loop phase Rgate(phis_loop[i]) inside every loop. -/
def advancedProg (ds n : List Nat) (phis_loop : List ℚ) : List CGate :=
  (CGate.sgate 0 (n.getD 0 0) ::
    (List.range ds.length).flatMap (fun i =>
      [CGate.rgateP (2 * i + 1) (n.getD i 0),
       CGate.bsgate (2 * i + 2) (1/2) (n.getD (i + 1) 0) (n.getD i 0),
       CGate.rgateStatic (phis_loop.getD i 0) (n.getD i 0)]))
  ++ [CGate.measureFock 0]

/-- Circuit of the advanced tutorial's realistic simulation: adds the global
loss after the squeezer, a per-loop loss after each loop and the
time-varying channel loss LossChannel(p[7]) before the measurement. -/
def advancedSimProg (ds n : List Nat) (phis_loop : List ℚ) (eta_glob : ℚ)
    (etas_loop : List ℚ) : List CGate :=
  (CGate.sgate 0 (n.getD 0 0) :: CGate.lossChannelK eta_glob (n.getD 0 0) ::
    (List.range ds.length).flatMap (fun i =>
      [CGate.rgateP (2 * i + 1) (n.getD i 0),
       CGate.bsgate (2 * i + 2) (1/2) (n.getD (i + 1) 0) (n.getD i 0),
       CGate.rgateStatic (phis_loop.getD i 0) (n.getD i 0),
       CGate.lossChannelK (etas_loop.getD i 0) (n.getD i 0)]))
  ++ [CGate.lossChannelP 7 0, CGate.measureFock 0]

/-- Passive circuit of the advanced tutorial used for the transfer matrix:
the same as the simulation circuit but without the squeezer and without the
measurement. -/
def advancedPassiveProg (ds n : List Nat) (phis_loop : List ℚ) (eta_glob : ℚ)
    (etas_loop : List ℚ) : List CGate :=
  (CGate.lossChannelK eta_glob (n.getD 0 0) ::
    (List.range ds.length).flatMap (fun i =>
      [CGate.rgateP (2 * i + 1) (n.getD i 0),
       CGate.bsgate (2 * i + 2) (1/2) (n.getD (i + 1) 0) (n.getD i 0),
       CGate.rgateStatic (phis_loop.getD i 0) (n.getD i 0),
       CGate.lossChannelK (etas_loop.getD i 0) (n.getD i 0)]))
  ++ [CGate.lossChannelP 7 0]

/-- C10: in every circuit the notebooks construct, every two-register
beamsplitter fixes its second (phase) argument to pi/2 (coefficient 1/2 of
pi) and takes its first argument from the programmable parameter slot
p[2i+2] of some loop i, so the beamsplitter phase is never
user-controllable. -/
theorem quickstartProg_bs (ds n : List Nat) (pIdx : Nat) (ph : ℚ) (m1 m2 : Nat)
    (hg : CGate.bsgate pIdx ph m1 m2 ∈ quickstartProg ds n) :
    ph = 1/2 ∧ ∃ i, i < ds.length ∧ pIdx = 2 * i + 2 := by
  rcases List.mem_append.mp hg with h | h
  · rcases List.mem_cons.mp h with heq | h'
    · cases heq
    · obtain ⟨i, hi, hmem⟩ := List.mem_flatMap.mp h'
      rcases List.mem_cons.mp hmem with heq | hmem'
      · cases heq
      · rcases List.mem_cons.mp hmem' with heq | hmem''
        · injection heq with h1 h2 h3 h4
          exact ⟨h2, i, List.mem_range.mp hi, h1⟩
        · cases hmem''
  · rcases List.mem_cons.mp h with heq | h'
    · cases heq
    · cases h'

theorem advancedProg_bs (ds n : List Nat) (phis_loop : List ℚ) (pIdx : Nat)
    (ph : ℚ) (m1 m2 : Nat)
    (hg : CGate.bsgate pIdx ph m1 m2 ∈ advancedProg ds n phis_loop) :
    ph = 1/2 ∧ ∃ i, i < ds.length ∧ pIdx = 2 * i + 2 := by
  rcases List.mem_append.mp hg with h | h
  · rcases List.mem_cons.mp h with heq | h'
    · cases heq
    · obtain ⟨i, hi, hmem⟩ := List.mem_flatMap.mp h'
      rcases List.mem_cons.mp hmem with heq | hmem'
      · cases heq
      · rcases List.mem_cons.mp hmem' with heq | hmem''
        · injection heq with h1 h2 h3 h4
          exact ⟨h2, i, List.mem_range.mp hi, h1⟩
        · rcases List.mem_cons.mp hmem'' with heq | hmem3
          · cases heq
          · cases hmem3
  · rcases List.mem_cons.mp h with heq | h'
    · cases heq
    · cases h'

theorem advancedSimProg_bs (ds n : List Nat) (phis_loop : List ℚ)
    (eta_glob : ℚ) (etas_loop : List ℚ) (pIdx : Nat) (ph : ℚ) (m1 m2 : Nat)
    (hg : CGate.bsgate pIdx ph m1 m2
      ∈ advancedSimProg ds n phis_loop eta_glob etas_loop) :
    ph = 1/2 ∧ ∃ i, i < ds.length ∧ pIdx = 2 * i + 2 := by
  rcases List.mem_append.mp hg with h | h
  · rcases List.mem_cons.mp h with heq | h'
    · cases heq
    · rcases List.mem_cons.mp h' with heq | h''
      · cases heq
      · obtain ⟨i, hi, hmem⟩ := List.mem_flatMap.mp h''
        rcases List.mem_cons.mp hmem with heq | hmem'
        · cases heq
        · rcases List.mem_cons.mp hmem' with heq | hmem''
          · injection heq with h1 h2 h3 h4
            exact ⟨h2, i, List.mem_range.mp hi, h1⟩
          · rcases List.mem_cons.mp hmem'' with heq | hmem3
            · cases heq
            · rcases List.mem_cons.mp hmem3 with heq | hmem4
              · cases heq
              · cases hmem4
  · rcases List.mem_cons.mp h with heq | h'
    · cases heq
    · rcases List.mem_cons.mp h' with heq | h''
      · cases heq
      · cases h''

theorem advancedPassiveProg_bs (ds n : List Nat) (phis_loop : List ℚ)
    (eta_glob : ℚ) (etas_loop : List ℚ) (pIdx : Nat) (ph : ℚ) (m1 m2 : Nat)
    (hg : CGate.bsgate pIdx ph m1 m2
      ∈ advancedPassiveProg ds n phis_loop eta_glob etas_loop) :
    ph = 1/2 ∧ ∃ i, i < ds.length ∧ pIdx = 2 * i + 2 := by
  rcases List.mem_append.mp hg with h | h
  · rcases List.mem_cons.mp h with heq | h'
    · cases heq
    · obtain ⟨i, hi, hmem⟩ := List.mem_flatMap.mp h'
      rcases List.mem_cons.mp hmem with heq | hmem'
      · cases heq
      · rcases List.mem_cons.mp hmem' with heq | hmem''
        · injection heq with h1 h2 h3 h4
          exact ⟨h2, i, List.mem_range.mp hi, h1⟩
        · rcases List.mem_cons.mp hmem'' with heq | hmem3
          · cases heq
          · rcases List.mem_cons.mp hmem3 with heq | hmem4
            · cases heq
            · cases hmem4
  · rcases List.mem_cons.mp h with heq | h'
    · cases heq
    · cases h'

/-- C10: in every circuit the notebooks construct (quickstart, beginner,
advanced hardware, advanced with loss, advanced passive), every two-register
beamsplitter fixes its second (phase) argument to pi/2 (coefficient 1/2 of
pi) and takes its first argument from the programmable parameter slot
p[2i+2] of some loop i, so the beamsplitter phase is never
user-controllable. -/
theorem bs_phase_constant (ds n : List Nat) (phis_loop : List ℚ)
    (eta_glob : ℚ) (etas_loop : List ℚ) :
    ∀ g ∈ quickstartProg ds n ++ beginnerProg ds n
        ++ advancedProg ds n phis_loop
        ++ advancedSimProg ds n phis_loop eta_glob etas_loop
        ++ advancedPassiveProg ds n phis_loop eta_glob etas_loop,
      ∀ pIdx ph m1 m2, g = CGate.bsgate pIdx ph m1 m2 →
        ph = 1/2 ∧ ∃ i, i < ds.length ∧ pIdx = 2 * i + 2 := by
  intro g hg pIdx ph m1 m2 heq
  subst heq
  rcases List.mem_append.mp hg with h4 | h4
  rcases List.mem_append.mp h4 with h3 | h3
  rcases List.mem_append.mp h3 with h2 | h2
  rcases List.mem_append.mp h2 with h1 | h1
  · exact quickstartProg_bs ds n pIdx ph m1 m2 h1
  · exact quickstartProg_bs ds n pIdx ph m1 m2 h1
  · exact advancedProg_bs ds n phis_loop pIdx ph m1 m2 h2
  · exact advancedSimProg_bs ds n phis_loop eta_glob etas_loop pIdx ph m1 m2 h3
  · exact advancedPassiveProg_bs ds n phis_loop eta_glob etas_loop pIdx ph m1 m2 h4

/-- Witness for C10 on the single-loop quickstart circuit with delays [1]
and mode indices [0, 1]: its beamsplitter has phase coefficient 1/2 and
parameter slot 2 = 2*0 + 2. -/
theorem bs_phase_constant_witness :
    (1/2 : ℚ) = 1/2 ∧ ∃ i, i < ([1] : List Nat).length ∧ 2 = 2 * i + 2 := by
  have hmem : CGate.bsgate 2 (1/2) 1 0 ∈ quickstartProg [1] [0, 1] := by
    apply List.mem_append_left
    apply List.mem_cons_of_mem
    apply List.mem_flatMap.mpr
    exact ⟨0, by simp, by simp⟩
  exact bs_phase_constant [1] [0, 1] [] 1 []
    (CGate.bsgate 2 (1/2) 1 0)
    (List.mem_append_left _ (List.mem_append_left _ (List.mem_append_left _
      (List.mem_append_left _ hmem))))
    2 (1/2) 1 0 rfl

end Borealis
